import Mathlib

/-! SRLE: stream run-length encoding.

A shallow embedding of `include/srle.h` (classes `SRLE::Encoder<ctrl>` and
`SRLE::Decoder<ctrl>`) together with proofs of the properties of the codec.

Modelling conventions.

* A byte (`uint8_t`) is a natural number below 256.  Arithmetic that can leave
  that range in the source is reduced `% 256` explicitly.
* The template parameter `ctrl` is an ordinary first argument.
* The write callback `writeFunc` appends the byte to the field `out` of the
  state, so `out` is the sequence of bytes handed to the callback so far, in
  call order.
* A member function becomes a function from the state before the call to the
  state after the call.
-/

namespace SRLE

/-- Default control character, `DEFAULT_CTRL`. -/
def DEFAULT_CTRL : Nat := 0xFA

/-- The loop `for (uint8_t i = 0; i < n; i++) writeFunc(v);` acting on the
callback trace.  The 8-bit index is incremented modulo 256.  The first argument
bounds the number of iterations executed by the model; an 8-bit bound `n`
needs at most 255 of them, so callers pass 256. -/
def writeLoop (n v : Nat) : Nat → Nat → List Nat → List Nat
  | 0, _, out => out
  | fuel + 1, i, out =>
    if i < n then writeLoop n v fuel ((i + 1) % 256) (out ++ [v]) else out

/-! ## Encoder -/

/-- State of `SRLE::Encoder`: the private members `lastByte` and `counter`
(both `uint8_t`) and the trace of the write callback. -/
structure Encoder where
  lastByte : Nat
  counter : Nat
  out : List Nat
  deriving DecidableEq, Repr

namespace Encoder

/-- The constructor: `lastByte(0)`, `counter(0)`, nothing written. -/
def init : Encoder := { lastByte := 0, counter := 0, out := [] }

/-- One call of the write callback. -/
def writeFunc (e : Encoder) (b : Nat) : Encoder := { e with out := e.out ++ [b] }

/-- `Encoder::writeSequence()`. -/
def writeSequence (ctrl : Nat) (e : Encoder) : Encoder :=
  if e.counter = 0 then e
  else if e.counter > 3 ∨ ctrl = e.lastByte then
    { ((e.writeFunc ctrl).writeFunc e.lastByte).writeFunc e.counter with counter := 0 }
  else
    { e with out := writeLoop e.counter e.lastByte 256 0 e.out, counter := 0 }

/-- `Encoder::putb(uint8_t b)`. -/
def putb (ctrl : Nat) (e : Encoder) (b : Nat) : Encoder :=
  if e.counter = 0 then { e with lastByte := b, counter := 1 }
  else if b = e.lastByte then
    let e1 := { e with counter := (e.counter + 1) % 256 }
    if e1.counter ≥ 255 then e1.writeSequence ctrl else e1
  else
    let e1 := e.writeSequence ctrl
    { e1 with counter := 1, lastByte := b }

/-- `Encoder::write(void* s, size_t l)`: the loop `for i in 0 .. l-1` calling
`putb(b[i])`.  The buffer is the list `s`; a length beyond the buffer is a read
out of bounds and has no result. -/
def write (ctrl : Nat) (e : Encoder) (s : List Nat) (l : Nat) : Option Encoder :=
  if l ≤ s.length then
    some ((List.range l).foldl (fun acc i => acc.putb ctrl (s.getD i 0)) e)
  else none

/-- `Encoder::puts(const char* s)`: `while (*s) { putb((uint8_t)*s); s++; }`.
The list is the memory starting at `s`; running off its end without meeting a
zero byte is a read out of bounds and has no result. -/
def puts (ctrl : Nat) (e : Encoder) : List Nat → Option Encoder
  | [] => none
  | c :: rest => if c = 0 then some e else puts ctrl (e.putb ctrl (c % 256)) rest

/-- Calling `putb` on every byte of `s`, in order. -/
def feed (ctrl : Nat) (e : Encoder) (s : List Nat) : Encoder :=
  s.foldl (putb ctrl) e

end Encoder

/-- Bytes written by a fresh encoder that is fed `s` byte by byte and then
flushed with `writeSequence`. -/
def encode (ctrl : Nat) (s : List Nat) : List Nat :=
  ((Encoder.init.feed ctrl s).writeSequence ctrl).out

/-! ## Decoder -/

/-- Conversion `uint8_t → int8_t` (assignment `lastByte = b` in the decoder). -/
def toInt8 (b : Nat) : Int :=
  if b % 256 < 128 then ((b % 256 : Nat) : Int) else ((b % 256 : Nat) : Int) - 256

/-- Conversion `int8_t → uint8_t` (argument passing `writeFunc(lastByte)`). -/
def toUInt8 (i : Int) : Nat := (i % 256).toNat

/-- State of `SRLE::Decoder`: the private members `gotCtrl`, `gotByte` and
`lastByte` (an `int8_t`) and the trace of the write callback. -/
structure Decoder where
  gotCtrl : Bool
  gotByte : Bool
  lastByte : Int
  out : List Nat
  deriving DecidableEq, Repr

namespace Decoder

/-- The constructor: `gotCtrl(false)`, `gotByte(false)`, `lastByte(0)`. -/
def init : Decoder := { gotCtrl := false, gotByte := false, lastByte := 0, out := [] }

/-- One call of the write callback. -/
def writeFunc (d : Decoder) (b : Nat) : Decoder := { d with out := d.out ++ [b] }

/-- `Decoder::putb(uint8_t b)`. -/
def putb (ctrl : Nat) (d : Decoder) (b : Nat) : Decoder :=
  if !d.gotCtrl then
    if b ≠ ctrl then d.writeFunc b
    else { d with gotCtrl := true }
  else if !d.gotByte then
    { d with lastByte := toInt8 b, gotByte := true }
  else
    { d with out := writeLoop b (toUInt8 d.lastByte) 256 0 d.out,
             gotByte := false, gotCtrl := false }

/-- `Decoder::write(void* s, size_t l)`; see `Encoder.write`. -/
def write (ctrl : Nat) (d : Decoder) (s : List Nat) (l : Nat) : Option Decoder :=
  if l ≤ s.length then
    some ((List.range l).foldl (fun acc i => acc.putb ctrl (s.getD i 0)) d)
  else none

/-- Calling `putb` on every byte of `s`, in order. -/
def feed (ctrl : Nat) (d : Decoder) (s : List Nat) : Decoder :=
  s.foldl (putb ctrl) d

end Decoder

/-- Bytes written by a fresh decoder that is fed `s` byte by byte. -/
def decode (ctrl : Nat) (s : List Nat) : List Nat :=
  (Decoder.init.feed ctrl s).out

/-! ## Definitions used in statements and proofs -/

/-- Bytes handed to the callback by one `writeSequence` call, as a function of
the members `lastByte = v` and `counter = c` (see `Encoder.writeSequence_eq`). -/
def flushBytes (ctrl v c : Nat) : List Nat :=
  if c = 0 then []
  else if c > 3 ∨ ctrl = v then [ctrl, v, c]
  else List.replicate c v

/-- The concatenation of `q` frames `[ctrl, v, 255]`. -/
def fullFrames (ctrl v : Nat) : Nat → List Nat
  | 0 => []
  | q + 1 => [ctrl, v, 255] ++ fullFrames ctrl v q

/-- The concatenation of the frames `[ctrl, v, k]` for the counts `k` of the
list, in order. -/
def frames (ctrl v : Nat) : List Nat → List Nat
  | [] => []
  | k :: ks => [ctrl, v, k] ++ frames ctrl v ks

/-- The bytes `out` are a concatenation of two or more frames `[ctrl, b, k]`,
each with `1 ≤ k ≤ 255`, whose counts sum to `n`. -/
def IsFrameSplit (ctrl b n : Nat) (out : List Nat) : Prop :=
  ∃ ks : List Nat, 2 ≤ ks.length ∧ (∀ k ∈ ks, 1 ≤ k ∧ k ≤ 255) ∧ ks.sum = n ∧
    out = frames ctrl b ks

/-- The encoder state `e` is in step with the input `t` consumed so far: the
counter is below the forced-flush value, `lastByte` is a byte, a fresh decoder
fed the bytes written so far is between frames, and what it has written,
followed by the open run, is `t`. -/
def InStep (ctrl : Nat) (e : Encoder) (t : List Nat) : Prop :=
  e.counter ≤ 254 ∧ e.lastByte < 256 ∧
  (Decoder.init.feed ctrl e.out).gotCtrl = false ∧
  (Decoder.init.feed ctrl e.out).gotByte = false ∧
  (Decoder.init.feed ctrl e.out).out ++ List.replicate e.counter e.lastByte = t

/-- A call on an encoder: `putb(b)` or `writeSequence()`. -/
inductive Call where
  | putb (b : Nat)
  | writeSequence
  deriving DecidableEq, Repr

/-- Performing one call. -/
def Encoder.call (ctrl : Nat) (e : Encoder) : Call → Encoder
  | Call.putb b => e.putb ctrl b
  | Call.writeSequence => e.writeSequence ctrl

/-- Performing a sequence of calls, in order. -/
def Encoder.run (ctrl : Nat) (e : Encoder) (cs : List Call) : Encoder :=
  cs.foldl (Encoder.call ctrl) e

/-- Reference definition, following the specification's description of the open
run: the effect of one call on the bytes accumulated since construction or since
the last flush.  A flush empties them; a byte met with no run open starts a run;
a byte equal to the run's byte extends it, and the run is flushed at once when
its length reaches 255; any other byte closes the run and starts a new one. -/
def specAccumulate (acc : List Nat) : Call → List Nat
  | Call.writeSequence => []
  | Call.putb b =>
    if acc = [] then [b]
    else if acc.head? = some b then
      if acc.length + 1 ≥ 255 then [] else acc ++ [b]
    else [b]

/-- Reference definition: the bytes accumulated and not yet flushed after a
sequence of calls on a fresh encoder. -/
def specAccumulated (cs : List Call) : List Nat :=
  cs.foldl specAccumulate []

/-- The wire format: a concatenation of tokens, each a single literal byte
different from `ctrl` or a frame `[ctrl, v, n]` with `1 ≤ n ≤ 255` and
`n ≥ 4` or `v = ctrl`. -/
inductive WireFormat (ctrl : Nat) : List Nat → Prop where
  | nil : WireFormat ctrl []
  | literal (b : Nat) (rest : List Nat) :
      b ≠ ctrl → WireFormat ctrl rest → WireFormat ctrl (b :: rest)
  | frame (v n : Nat) (rest : List Nat) :
      1 ≤ n → n ≤ 255 → (4 ≤ n ∨ v = ctrl) → WireFormat ctrl rest →
      WireFormat ctrl (ctrl :: v :: n :: rest)

/-- The maximal runs of a byte sequence, in order: pairs (byte, length). -/
def runs : List Nat → List (Nat × Nat)
  | [] => []
  | b :: s =>
    match runs s with
    | [] => [(b, 1)]
    | (v, n) :: rs => if v = b then (v, n + 1) :: rs else (b, 1) :: (v, n) :: rs

/-- Concatenation of the lists `f x` for the elements `x` of a list, in order. -/
def specConcat {α : Type} (f : α → List Nat) : List α → List Nat
  | [] => []
  | x :: xs => f x ++ specConcat f xs

/-- Reference definition: a run of length `n` is cut greedily into `n / 255`
pieces of length 255 followed by one piece of length `n % 255` if that is not
zero. -/
def specPieces (n : Nat) : List Nat :=
  List.replicate (n / 255) 255 ++ (if n % 255 = 0 then [] else [n % 255])

/-- Reference definition: a piece of `k` copies of `b` is encoded as the frame
`[ctrl, b, k]` if `k > 3` or `b = ctrl`, and as `k` literal copies of `b`
otherwise. -/
def specPiece (ctrl b k : Nat) : List Nat :=
  if k > 3 ∨ b = ctrl then [ctrl, b, k] else List.replicate k b

/-- Reference definition: the encoding of one maximal run. -/
def specRun (ctrl : Nat) (r : Nat × Nat) : List Nat :=
  specConcat (specPiece ctrl r.1) (specPieces r.2)

/-- Reference definition of the encoder as a batch function: the concatenation
of the encodings of the maximal runs of the input. -/
def specEncode (ctrl : Nat) (s : List Nat) : List Nat :=
  specConcat (specRun ctrl) (runs s)

/-! ## Auxiliary facts -/

/-- The write loop with an 8-bit bound performs exactly `n - i` further writes. -/
theorem writeLoop_eq (n v : Nat) (hn : n < 256) :
    ∀ (fuel i : Nat) (out : List Nat), i ≤ n → n - i < fuel →
      writeLoop n v fuel i out = out ++ List.replicate (n - i) v := by
  intro fuel
  induction fuel with
  | zero => intro i out _ h; omega
  | succ fuel ih =>
    intro i out hi hf
    unfold writeLoop
    by_cases h : i < n
    · have hmod : (i + 1) % 256 = i + 1 := Nat.mod_eq_of_lt (by omega)
      rw [if_pos h, hmod, ih (i + 1) (out ++ [v]) (by omega) (by omega)]
      have hs : n - i = (n - (i + 1)) + 1 := by omega
      rw [hs, List.replicate_succ, List.append_assoc]
      rfl
    · have hz : n - i = 0 := by omega
      rw [if_neg h, hz]
      simp

/-- A complete write loop performs exactly `n` writes. -/
theorem writeLoop_full (n v : Nat) (hn : n < 256) (out : List Nat) :
    writeLoop n v 256 0 out = out ++ List.replicate n v := by
  have := writeLoop_eq n v hn 256 0 out (Nat.zero_le _) (by omega)
  simpa using this

namespace Encoder

theorem writeSequence_eq (ctrl : Nat) (e : Encoder) :
    e.writeSequence ctrl =
      { lastByte := e.lastByte, counter := 0,
        out := e.out ++ flushBytes ctrl e.lastByte e.counter } := by
  obtain ⟨v, c, o⟩ := e
  unfold writeSequence flushBytes
  by_cases h0 : c = 0
  · simp [h0]
  · by_cases h1 : c > 3 ∨ ctrl = v
    · simp [h0, h1, writeFunc]
    · have hc : c < 256 := by
        have : ¬ c > 3 := fun h => h1 (Or.inl h)
        omega
      simp only [h0, h1, if_false]
      rw [writeLoop_full c v hc]

theorem putb_eq (ctrl v c : Nat) (o : List Nat) (b : Nat) :
    putb ctrl { lastByte := v, counter := c, out := o } b =
      if c = 0 then { lastByte := b, counter := 1, out := o }
      else if b = v then
        if (c + 1) % 256 ≥ 255 then
          { lastByte := v, counter := 0, out := o ++ flushBytes ctrl v ((c + 1) % 256) }
        else { lastByte := v, counter := (c + 1) % 256, out := o }
      else { lastByte := b, counter := 1, out := o ++ flushBytes ctrl v c } := by
  unfold putb
  simp only [writeSequence_eq]

theorem feed_nil (ctrl : Nat) (e : Encoder) : e.feed ctrl [] = e := rfl

theorem feed_cons (ctrl : Nat) (e : Encoder) (b : Nat) (s : List Nat) :
    e.feed ctrl (b :: s) = (e.putb ctrl b).feed ctrl s := rfl

theorem feed_append (ctrl : Nat) (e : Encoder) (s t : List Nat) :
    e.feed ctrl (s ++ t) = (e.feed ctrl s).feed ctrl t := by
  simp [feed, List.foldl_append]

/-- Extending an open run below the forced flush only increments the counter. -/
theorem feed_run_lt (ctrl v : Nat) (o : List Nat) :
    ∀ (k c : Nat), 1 ≤ c → c + k ≤ 254 →
      feed ctrl { lastByte := v, counter := c, out := o } (List.replicate k v) =
        { lastByte := v, counter := c + k, out := o } := by
  intro k
  induction k with
  | zero => intro c _ _; rfl
  | succ k ih =>
    intro c h1 h2
    have hmod : (c + 1) % 256 = c + 1 := Nat.mod_eq_of_lt (by omega)
    rw [List.replicate_succ, feed_cons, putb_eq, if_neg (by omega), if_pos rfl, hmod,
      if_neg (by omega), ih (c + 1) (by omega) (by omega)]
    congr 1
    omega

/-- The byte that takes an open run to 255 forces the frame out. -/
theorem putb_run_full (ctrl v : Nat) (o : List Nat) :
    putb ctrl { lastByte := v, counter := 254, out := o } v =
      { lastByte := v, counter := 0, out := o ++ [ctrl, v, 255] } := by
  rw [putb_eq]
  simp [flushBytes]

/-- A byte arriving when no run is open starts a run, whatever the stale
`lastByte` is. -/
theorem putb_idle (ctrl w : Nat) (o : List Nat) (b : Nat) :
    putb ctrl { lastByte := w, counter := 0, out := o } b =
      { lastByte := b, counter := 1, out := o } := by
  rw [putb_eq]
  simp

/-- Feeding 255 equal bytes to an idle encoder writes one full frame and leaves
the encoder idle. -/
theorem feed_run_255 (ctrl w v : Nat) (o : List Nat) :
    feed ctrl { lastByte := w, counter := 0, out := o } (List.replicate 255 v) =
      { lastByte := v, counter := 0, out := o ++ [ctrl, v, 255] } := by
  have h : List.replicate 255 v = v :: (List.replicate 253 v ++ [v]) := by
    rw [← List.replicate_succ', ← List.replicate_succ]
  rw [h, feed_cons, putb_idle, feed_append, feed_run_lt ctrl v o 253 1 (by omega) (by omega)]
  exact putb_run_full ctrl v o

/-- Feeding `255 * q + r` equal bytes, `r < 255`, to an idle encoder writes `q`
full frames and leaves a run of `r` open. -/
theorem feed_run_idle (ctrl v : Nat) :
    ∀ (q r w : Nat) (o : List Nat), r < 255 → 0 < 255 * q + r →
      feed ctrl { lastByte := w, counter := 0, out := o } (List.replicate (255 * q + r) v) =
        { lastByte := v, counter := r, out := o ++ fullFrames ctrl v q } := by
  intro q
  induction q with
  | zero =>
    intro r w o hr hpos
    obtain ⟨r, rfl⟩ : ∃ r', r = r' + 1 := ⟨r - 1, by omega⟩
    have h : 255 * 0 + (r + 1) = r + 1 := by omega
    rw [h, List.replicate_succ, feed_cons, putb_idle,
      feed_run_lt ctrl v o r 1 (by omega) (by omega)]
    simp [fullFrames, Nat.add_comm]
  | succ q ih =>
    intro r w o hr _
    have h : 255 * (q + 1) + r = 255 + (255 * q + r) := by omega
    rw [h, List.replicate_add, feed_append, feed_run_255]
    by_cases hz : 255 * q + r = 0
    · have hq : q = 0 := by omega
      have hr0 : r = 0 := by omega
      subst hq hr0
      simp [fullFrames, feed]
    · rw [ih r v _ hr (by omega)]
      simp [fullFrames, List.append_assoc]

theorem writeSequence_idle (ctrl w : Nat) (o : List Nat) :
    writeSequence ctrl { lastByte := w, counter := 0, out := o } =
      { lastByte := w, counter := 0, out := o } := by
  simp [writeSequence]

end Encoder

theorem fullFrames_eq_frames (ctrl v : Nat) (q : Nat) :
    fullFrames ctrl v q = frames ctrl v (List.replicate q 255) := by
  induction q with
  | zero => rfl
  | succ q ih => simp [fullFrames, frames, List.replicate_succ, ih]

theorem frames_append (ctrl v : Nat) (ks ls : List Nat) :
    frames ctrl v (ks ++ ls) = frames ctrl v ks ++ frames ctrl v ls := by
  induction ks with
  | nil => rfl
  | cons k ks ih => simp [frames, ih]

theorem frames_length (ctrl v : Nat) (ks : List Nat) :
    (frames ctrl v ks).length = 3 * ks.length := by
  induction ks with
  | nil => rfl
  | cons k ks ih => simp [frames, ih]; omega

/-- Output for a single run of `255 * q + r` copies of `v`, `r < 255`. -/
theorem encode_run (ctrl v q r : Nat) (hr : r < 255) :
    encode ctrl (List.replicate (255 * q + r) v) =
      fullFrames ctrl v q ++ flushBytes ctrl v r := by
  unfold encode Encoder.init
  by_cases hz : 255 * q + r = 0
  · have hq : q = 0 := by omega
    have hr0 : r = 0 := by omega
    subst hq hr0
    simp [Encoder.feed, Encoder.writeSequence, fullFrames, flushBytes]
  · rw [Encoder.feed_run_idle ctrl v q r 0 [] hr (by omega), Encoder.writeSequence_eq]
    simp

/-- The index loop of `write` visits the bytes of the buffer in order. -/
theorem foldl_range_getD {σ : Type} (f : σ → Nat → σ) :
    ∀ (s : List Nat) (e : σ),
      (List.range s.length).foldl (fun acc i => f acc (s.getD i 0)) e = s.foldl f e := by
  intro s
  induction s with
  | nil => intro e; rfl
  | cons b s ih =>
    intro e
    rw [List.length_cons, List.range_succ_eq_map, List.foldl_cons, List.foldl_map]
    simpa using ih (f e b)

namespace Encoder

/-- Bytes already written are only ever extended: `putb` acts on the trace by
appending. -/
theorem putb_out_frame (ctrl v c : Nat) (o o' : List Nat) (b : Nat) :
    putb ctrl { lastByte := v, counter := c, out := o ++ o' } b =
      { lastByte := (putb ctrl { lastByte := v, counter := c, out := o' } b).lastByte,
        counter := (putb ctrl { lastByte := v, counter := c, out := o' } b).counter,
        out := o ++ (putb ctrl { lastByte := v, counter := c, out := o' } b).out } := by
  rw [putb_eq, putb_eq]
  split_ifs <;> simp [List.append_assoc]

theorem feed_out_frame (ctrl : Nat) (o : List Nat) :
    ∀ (s : List Nat) (v c : Nat) (o' : List Nat),
      feed ctrl { lastByte := v, counter := c, out := o ++ o' } s =
        { lastByte := (feed ctrl { lastByte := v, counter := c, out := o' } s).lastByte,
          counter := (feed ctrl { lastByte := v, counter := c, out := o' } s).counter,
          out := o ++ (feed ctrl { lastByte := v, counter := c, out := o' } s).out } := by
  intro s
  induction s with
  | nil => intro v c o'; rfl
  | cons b s ih =>
    intro v c o'
    rw [feed_cons, feed_cons, putb_out_frame, ih]

/-- An idle encoder that already wrote `o` continues like a fresh one: after
feeding `s` and flushing, the trace is `o` followed by `encode ctrl s`. -/
theorem flush_feed_idle (ctrl w : Nat) (o s : List Nat) :
    (writeSequence ctrl (feed ctrl { lastByte := w, counter := 0, out := o } s)).out =
      o ++ encode ctrl s := by
  cases s with
  | nil => simp [encode, init, feed, writeSequence]
  | cons b s =>
    have h := feed_out_frame ctrl o s b 1 []
    rw [List.append_nil] at h
    unfold encode init
    rw [feed_cons, feed_cons, putb_idle, putb_idle, h, writeSequence_eq, writeSequence_eq]
    simp [List.append_assoc]

theorem puts_eq_feed (ctrl : Nat) :
    ∀ (s rest : List Nat) (e : Encoder), 0 ∉ s → (∀ b ∈ s, b < 256) →
      puts ctrl e (s ++ 0 :: rest) = some (e.feed ctrl s) := by
  intro s
  induction s with
  | nil => intro rest e _ _; simp [puts, feed]
  | cons b s ih =>
    intro rest e h0 hb
    have hb0 : b ≠ 0 := fun h => h0 (by simp [h])
    have hlt : b % 256 = b := Nat.mod_eq_of_lt (hb b (by simp))
    rw [List.cons_append, puts, if_neg hb0, hlt, feed_cons]
    exact ih rest _ (fun h => h0 (List.mem_cons_of_mem _ h))
      (fun x hx => hb x (List.mem_cons_of_mem _ hx))

end Encoder

theorem toUInt8_toInt8 (v : Nat) (hv : v < 256) : toUInt8 (toInt8 v) = v := by
  unfold toUInt8 toInt8
  have hmod : v % 256 = v := Nat.mod_eq_of_lt hv
  rw [hmod]
  split_ifs <;> omega

namespace Decoder

theorem decoder_feed_cons (ctrl : Nat) (d : Decoder) (b : Nat) (s : List Nat) :
    d.feed ctrl (b :: s) = (d.putb ctrl b).feed ctrl s := rfl

theorem decoder_feed_append (ctrl : Nat) (d : Decoder) (s t : List Nat) :
    d.feed ctrl (s ++ t) = (d.feed ctrl s).feed ctrl t := by
  simp [feed, List.foldl_append]

/-- Between frames, bytes other than the escape byte pass through. -/
theorem feed_literals (ctrl v : Nat) (hv : v ≠ ctrl) :
    ∀ (c : Nat) (lb : Int) (o : List Nat),
      feed ctrl { gotCtrl := false, gotByte := false, lastByte := lb, out := o }
          (List.replicate c v) =
        { gotCtrl := false, gotByte := false, lastByte := lb,
          out := o ++ List.replicate c v } := by
  intro c
  induction c with
  | zero => intro lb o; simp [feed]
  | succ c ih =>
    intro lb o
    rw [List.replicate_succ, decoder_feed_cons]
    have hp : putb ctrl { gotCtrl := false, gotByte := false, lastByte := lb, out := o } v =
        { gotCtrl := false, gotByte := false, lastByte := lb, out := o ++ [v] } := by
      simp [putb, hv, writeFunc]
    rw [hp, ih]
    simp [List.append_assoc]

/-- Between frames, a frame `[ctrl, v, c]` is expanded to `c` copies of `v`. -/
theorem feed_frame (ctrl v c : Nat) (hv : v < 256) (hc : c < 256) (lb : Int) (o : List Nat) :
    feed ctrl { gotCtrl := false, gotByte := false, lastByte := lb, out := o } [ctrl, v, c] =
      { gotCtrl := false, gotByte := false, lastByte := toInt8 v,
        out := o ++ List.replicate c v } := by
  simp [feed, putb, writeLoop_full _ _ hc, toUInt8_toInt8 v hv]

/-- Between frames, the bytes of one flush decode to the run they encode. -/
theorem feed_flushBytes (ctrl v c : Nat) (hv : v < 256) (hc : c < 256) (lb : Int)
    (o : List Nat) :
    ∃ lb', feed ctrl { gotCtrl := false, gotByte := false, lastByte := lb, out := o }
        (flushBytes ctrl v c) =
      { gotCtrl := false, gotByte := false, lastByte := lb',
        out := o ++ List.replicate c v } := by
  unfold flushBytes
  by_cases h0 : c = 0
  · exact ⟨lb, by simp [h0, feed]⟩
  · by_cases h1 : c > 3 ∨ ctrl = v
    · rw [if_neg h0, if_pos h1]
      exact ⟨toInt8 v, feed_frame ctrl v c hv hc lb o⟩
    · rw [if_neg h0, if_neg h1]
      have hne : v ≠ ctrl := fun h => h1 (Or.inr h.symm)
      exact ⟨lb, feed_literals ctrl v hne c lb o⟩

/-- The same, for a decoder given by its fields. -/
theorem feed_flushBytes_fields (ctrl v c : Nat) (hv : v < 256) (hc : c < 256)
    (d : Decoder) (hg : d.gotCtrl = false) (hb : d.gotByte = false) :
    (feed ctrl d (flushBytes ctrl v c)).gotCtrl = false ∧
    (feed ctrl d (flushBytes ctrl v c)).gotByte = false ∧
    (feed ctrl d (flushBytes ctrl v c)).out = d.out ++ List.replicate c v := by
  obtain ⟨g, gb, lb, o⟩ := d
  simp only at hg hb
  subst hg hb
  obtain ⟨lb', h⟩ := feed_flushBytes ctrl v c hv hc lb o
  rw [h]
  exact ⟨rfl, rfl, rfl⟩

end Decoder

theorem inStep_init (ctrl : Nat) : InStep ctrl Encoder.init [] := by
  simp [InStep, Encoder.init, Decoder.init, Decoder.feed]

/-- One `putb` keeps encoder and decoder in step. -/
theorem inStep_putb (ctrl : Nat) (e : Encoder) (t : List Nat) (b : Nat) (hb : b < 256)
    (h : InStep ctrl e t) : InStep ctrl (e.putb ctrl b) (t ++ [b]) := by
  obtain ⟨v, c, o⟩ := e
  obtain ⟨hc, hv, hg, hgb, ht⟩ := h
  simp only at hc hv hg hgb ht
  rw [Encoder.putb_eq]
  by_cases h0 : c = 0
  · subst h0
    rw [if_pos rfl]
    refine ⟨by simp, hb, hg, hgb, ?_⟩
    simp only [List.replicate_zero, List.append_nil] at ht
    simp [ht]
  · rw [if_neg h0]
    have hmod : (c + 1) % 256 = c + 1 := Nat.mod_eq_of_lt (by omega)
    by_cases hbv : b = v
    · subst hbv
      rw [if_pos rfl, hmod]
      by_cases hfull : c + 1 ≥ 255
      · rw [if_pos hfull]
        obtain ⟨h1, h2, h3⟩ := Decoder.feed_flushBytes_fields ctrl b (c + 1) hb (by omega)
          (Decoder.init.feed ctrl o) hg hgb
        refine ⟨by simp, hb, ?_, ?_, ?_⟩
        · simp only [Decoder.decoder_feed_append]; exact h1
        · simp only [Decoder.decoder_feed_append]; exact h2
        · simp only [Decoder.decoder_feed_append, List.replicate_zero, List.append_nil]
          rw [h3, List.replicate_succ', ← List.append_assoc, ht]
      · rw [if_neg hfull]
        refine ⟨by simp; omega, hb, hg, hgb, ?_⟩
        simp only
        rw [List.replicate_succ', ← List.append_assoc, ht]
    · rw [if_neg hbv]
      obtain ⟨h1, h2, h3⟩ := Decoder.feed_flushBytes_fields ctrl v c hv (by omega)
        (Decoder.init.feed ctrl o) hg hgb
      refine ⟨by simp, hb, ?_, ?_, ?_⟩
      · simp only [Decoder.decoder_feed_append]; exact h1
      · simp only [Decoder.decoder_feed_append]; exact h2
      · simp only [Decoder.decoder_feed_append]
        rw [h3, ht]
        rfl

/-- Feeding bytes keeps encoder and decoder in step. -/
theorem inStep_feed (ctrl : Nat) :
    ∀ (s : List Nat) (e : Encoder) (t : List Nat), (∀ b ∈ s, b < 256) →
      InStep ctrl e t → InStep ctrl (e.feed ctrl s) (t ++ s) := by
  intro s
  induction s with
  | nil => intro e t _ h; simpa [Encoder.feed] using h
  | cons b s ih =>
    intro e t hs h
    have hb : b < 256 := hs b (by simp)
    have h' := ih (e.putb ctrl b) (t ++ [b]) (fun x hx => hs x (List.mem_cons_of_mem _ hx))
      (inStep_putb ctrl e t b hb h)
    rw [Encoder.feed_cons]
    simpa [List.append_assoc] using h'

/-- The state reached from a fresh encoder is in step with the input. -/
theorem inStep_of_feed (ctrl : Nat) (s : List Nat) (hs : ∀ b ∈ s, b < 256) :
    InStep ctrl (Encoder.init.feed ctrl s) s := by
  have h := inStep_feed ctrl s Encoder.init [] hs (inStep_init ctrl)
  simpa using h

/-- After a flush, a fresh decoder fed the whole output is between frames and has
written the input. -/
theorem decoder_after_flush (ctrl : Nat) (s : List Nat) (hs : ∀ b ∈ s, b < 256) :
    (Decoder.init.feed ctrl (encode ctrl s)).gotCtrl = false ∧
    (Decoder.init.feed ctrl (encode ctrl s)).gotByte = false ∧
    (Decoder.init.feed ctrl (encode ctrl s)).out = s := by
  obtain ⟨hc, hv, hg, hgb, ht⟩ := inStep_of_feed ctrl s hs
  unfold encode
  rw [Encoder.writeSequence_eq]
  simp only [Decoder.decoder_feed_append]
  obtain ⟨h1, h2, h3⟩ := Decoder.feed_flushBytes_fields ctrl
    (Encoder.init.feed ctrl s).lastByte (Encoder.init.feed ctrl s).counter hv (by omega)
    (Decoder.init.feed ctrl (Encoder.init.feed ctrl s).out) hg hgb
  exact ⟨h1, h2, by rw [h3, ht]⟩

namespace Encoder

/-- After `putb b` the member `lastByte` is `b`. -/
theorem putb_lastByte (ctrl : Nat) (e : Encoder) (b : Nat) : (e.putb ctrl b).lastByte = b := by
  obtain ⟨v, c, o⟩ := e
  rw [putb_eq]
  split_ifs with h0 h1 h2
  · rfl
  · exact h1.symm
  · exact h1.symm
  · rfl

/-- After feeding a non-empty input the member `lastByte` is its last byte. -/
theorem feed_lastByte (ctrl : Nat) (e : Encoder) (s : List Nat) (x : Nat)
    (hx : s.getLast? = some x) : (e.feed ctrl s).lastByte = x := by
  induction s using List.reverseRecOn with
  | nil => simp at hx
  | append_singleton s b _ =>
    rw [List.getLast?_append] at hx
    simp at hx
    subst hx
    rw [feed_append]
    exact putb_lastByte ctrl _ b

/-- A byte that does not continue the open run (or meets no open run) flushes it
and starts a run of length 1. -/
theorem putb_new_run (ctrl : Nat) (e : Encoder) (v : Nat)
    (h : e.counter = 0 ∨ e.lastByte ≠ v) :
    e.putb ctrl v = { lastByte := v, counter := 1, out := (e.writeSequence ctrl).out } := by
  obtain ⟨w, c, o⟩ := e
  simp only at h
  rw [putb_eq, writeSequence_eq]
  by_cases h0 : c = 0
  · subst h0
    simp [flushBytes]
  · have hne : ¬ v = w := fun hv => by
      rcases h with h | h
      · exact h0 h
      · exact h hv.symm
    rw [if_neg h0, if_neg hne]

/-- Appending a run of `n` escape bytes, `1 ≤ n ≤ 255`, to an input that does not
leave an open run of escape bytes adds exactly the frame `[ctrl, ctrl, n]`. -/
theorem flush_feed_ctrl_run (ctrl : Nat) (e : Encoder) (n : Nat) (h1 : 1 ≤ n) (h255 : n ≤ 255)
    (h : e.counter = 0 ∨ e.lastByte ≠ ctrl) :
    ((e.feed ctrl (List.replicate n ctrl)).writeSequence ctrl).out =
      (e.writeSequence ctrl).out ++ [ctrl, ctrl, n] := by
  obtain ⟨k, rfl⟩ : ∃ k, n = k + 1 := ⟨n - 1, by omega⟩
  rw [List.replicate_succ, feed_cons, putb_new_run ctrl e ctrl h]
  by_cases hk : k = 254
  · subst hk
    rw [List.replicate_succ', feed_append, feed_run_lt ctrl ctrl _ 253 1 (by omega) (by omega)]
    have hp := putb_run_full ctrl ctrl (e.writeSequence ctrl).out
    simp only [feed, List.foldl_cons, List.foldl_nil]
    rw [show 1 + 253 = 254 from rfl, hp, writeSequence_idle]
  · rw [feed_run_lt ctrl ctrl _ k 1 (by omega) (by omega), writeSequence_eq]
    have hf : flushBytes ctrl ctrl (1 + k) = [ctrl, ctrl, k + 1] := by
      unfold flushBytes
      rw [if_neg (by omega), if_pos (Or.inr rfl), Nat.add_comm]
    simp only [hf]

end Encoder

/-! ## The claims -/

/-- C3 (long-run framing): for every escape byte `ctrl`, every byte `b` and every
`n` with `4 ≤ n ≤ 255`, feeding `n` copies of `b` to a fresh encoder and then
calling `writeSequence` writes exactly the three bytes `[ctrl, b, n]`.  (The
statement does not need `b ≠ ctrl`.) -/
theorem C3_long_run_framing (ctrl b n : Nat) (h4 : 4 ≤ n) (h255 : n ≤ 255) :
    encode ctrl (List.replicate n b) = [ctrl, b, n] := by
  by_cases h : n = 255
  · subst h
    exact encode_run ctrl b 1 0 (by omega)
  · have := encode_run ctrl b 0 n (by omega)
    have h3 : n ≠ 0 := by omega
    have h4' : 3 < n := by omega
    simpa [fullFrames, flushBytes, h3, h4'] using this

theorem C3_long_run_framing_witness :
    (4 ≤ 8 ∧ 8 ≤ 255) ∧ encode 0xFA (List.replicate 8 0x41) = [0xFA, 0x41, 8] :=
  ⟨by decide, C3_long_run_framing 0xFA 0x41 8 (by decide) (by decide)⟩

/-- C4 (short-run passthrough): for every escape byte `ctrl`, every byte
`b ≠ ctrl` and every `n` with `1 ≤ n ≤ 3`, feeding `n` copies of `b` to a fresh
encoder and then calling `writeSequence` writes exactly `n` copies of `b`. -/
theorem C4_short_run_passthrough (ctrl b n : Nat) (hb : b ≠ ctrl) (h1 : 1 ≤ n) (h3 : n ≤ 3) :
    encode ctrl (List.replicate n b) = List.replicate n b := by
  have := encode_run ctrl b 0 n (by omega)
  have h0 : n ≠ 0 := by omega
  have h3' : ¬ 3 < n := by omega
  have hb' : ¬ ctrl = b := fun h => hb h.symm
  simpa [fullFrames, flushBytes, h0, h3', hb'] using this

theorem C4_short_run_passthrough_witness :
    (0x41 ≠ 0xFA ∧ 1 ≤ 3 ∧ 3 ≤ 3) ∧
      encode 0xFA (List.replicate 3 0x41) = List.replicate 3 0x41 :=
  ⟨by decide, C4_short_run_passthrough 0xFA 0x41 3 (by decide) (by decide) (by decide)⟩

/-- C5 (overflow split): for every escape byte `ctrl` and every byte `b`, feeding
300 copies of `b` to a fresh encoder and then calling `writeSequence` writes
exactly the six bytes `[ctrl, b, 255, ctrl, b, 45]`.  (The statement does not
need `b ≠ ctrl`.) -/
theorem C5_overflow_split (ctrl b : Nat) :
    encode ctrl (List.replicate 300 b) = [ctrl, b, 255, ctrl, b, 45] := by
  have hf : flushBytes ctrl b 45 = [ctrl, b, 45] := by simp [flushBytes]
  have h := encode_run ctrl b 1 45 (by omega)
  rw [hf] at h
  exact h

/-- C6, as stated, fails: 256 copies of `0x41` with `ctrl = 0xFA` are written as
the frame `FA 41 FF` followed by the literal byte `41`, which is not a
concatenation of 3-byte frames. -/
theorem C6_counterexample :
    encode 0xFA (List.replicate 256 0x41) = [0xFA, 0x41, 255, 0x41] ∧
      ¬ IsFrameSplit 0xFA 0x41 256 (encode 0xFA (List.replicate 256 0x41)) := by
  have h : encode 0xFA (List.replicate 256 0x41) = [0xFA, 0x41, 255, 0x41] :=
    encode_run 0xFA 0x41 1 1 (by omega)
  refine ⟨h, ?_⟩
  rintro ⟨ks, _, _, _, heq⟩
  have hl := congrArg List.length heq
  rw [h, frames_length] at hl
  simp at hl
  omega

/-- C6 (amended): for every escape byte `ctrl`, every byte `b` and every
`n ≥ 256`, feeding `n` copies of `b` to a fresh encoder and then calling
`writeSequence` writes `n / 255 ≥ 1` frames `[ctrl, b, 255]` followed by the
encoding of the remaining `n % 255` copies as a fresh run: nothing if that is
zero, one frame `[ctrl, b, n % 255]` if it exceeds 3 or `b = ctrl`, and
`n % 255` literal copies of `b` otherwise.  Whenever the remainder is not
written literally, the output is a concatenation of two or more frames
`[ctrl, b, k]`, `1 ≤ k ≤ 255`, whose counts sum to `n`. -/
theorem C6_run_split (ctrl b n : Nat) (hn : 256 ≤ n) :
    1 ≤ n / 255 ∧
    encode ctrl (List.replicate n b) =
      frames ctrl b (List.replicate (n / 255) 255) ++
        (if n % 255 = 0 then []
         else if 3 < n % 255 ∨ b = ctrl then [ctrl, b, n % 255]
         else List.replicate (n % 255) b) ∧
    ((b = ctrl ∨ n % 255 = 0 ∨ 3 < n % 255) →
      IsFrameSplit ctrl b n (encode ctrl (List.replicate n b))) := by
  have hr : n % 255 < 255 := Nat.mod_lt _ (by omega)
  have hq : 1 ≤ n / 255 := (Nat.one_le_div_iff (by omega)).2 (by omega)
  have hdecomp : 255 * (n / 255) + n % 255 = n := Nat.div_add_mod n 255
  have henc : encode ctrl (List.replicate n b) =
      frames ctrl b (List.replicate (n / 255) 255) ++ flushBytes ctrl b (n % 255) := by
    have h := encode_run ctrl b (n / 255) (n % 255) hr
    rw [hdecomp, fullFrames_eq_frames] at h
    exact h
  have hflush : flushBytes ctrl b (n % 255) =
      (if n % 255 = 0 then []
       else if 3 < n % 255 ∨ b = ctrl then [ctrl, b, n % 255]
       else List.replicate (n % 255) b) := by
    unfold flushBytes
    simp only [gt_iff_lt, eq_comm]
  refine ⟨hq, ?_, ?_⟩
  · rw [henc, hflush]
  · intro hcase
    by_cases hz : n % 255 = 0
    · refine ⟨List.replicate (n / 255) 255, ?_, ?_, ?_, ?_⟩
      · rw [List.length_replicate]; omega
      · intro k hk
        rw [List.eq_of_mem_replicate hk]
        omega
      · rw [List.sum_replicate, smul_eq_mul]; omega
      · rw [henc]
        simp [flushBytes, hz]
    · have hfr : flushBytes ctrl b (n % 255) = [ctrl, b, n % 255] := by
        unfold flushBytes
        rw [if_neg hz, if_pos]
        rcases hcase with h | h | h
        · exact Or.inr h.symm
        · exact absurd h hz
        · exact Or.inl h
      refine ⟨List.replicate (n / 255) 255 ++ [n % 255], ?_, ?_, ?_, ?_⟩
      · rw [List.length_append, List.length_replicate]; simp; omega
      · intro k hk
        rcases List.mem_append.1 hk with hk | hk
        · rw [List.eq_of_mem_replicate hk]; omega
        · rw [List.mem_singleton.1 hk]; omega
      · rw [List.sum_append, List.sum_replicate, smul_eq_mul]; simp; omega
      · rw [henc, hfr, frames_append]
        rfl

theorem C6_run_split_witness :
    256 ≤ 256 ∧
    (1 ≤ 256 / 255 ∧
     encode 0xFA (List.replicate 256 0x41) =
       frames 0xFA 0x41 (List.replicate (256 / 255) 255) ++
         (if 256 % 255 = 0 then []
          else if 3 < 256 % 255 ∨ 0x41 = 0xFA then [0xFA, 0x41, 256 % 255]
          else List.replicate (256 % 255) 0x41) ∧
     ((0x41 = 0xFA ∨ 256 % 255 = 0 ∨ 3 < 256 % 255) →
       IsFrameSplit 0xFA 0x41 256 (encode 0xFA (List.replicate 256 0x41)))) :=
  ⟨by decide, C6_run_split 0xFA 0x41 256 (by decide)⟩

/-- C8 (flush idempotence): for every encoder state, a second `writeSequence`
directly after a first one writes no bytes and leaves the state unchanged; and
`writeSequence` on a freshly constructed encoder writes nothing. -/
theorem C8_flush_idempotent (ctrl : Nat) (e : Encoder) :
    (e.writeSequence ctrl).writeSequence ctrl = e.writeSequence ctrl ∧
    ((e.writeSequence ctrl).writeSequence ctrl).out = (e.writeSequence ctrl).out ∧
    Encoder.init.writeSequence ctrl = Encoder.init ∧
    (Encoder.init.writeSequence ctrl).out = [] := by
  have h : (e.writeSequence ctrl).writeSequence ctrl = e.writeSequence ctrl := by
    rw [Encoder.writeSequence_eq ctrl e, Encoder.writeSequence_idle]
  have hi : Encoder.init.writeSequence ctrl = Encoder.init := by
    simp [Encoder.init, Encoder.writeSequence]
  exact ⟨h, by rw [h], hi, by rw [hi]; rfl⟩

/-- C9 (flush resets the encoder): for all byte sequences `s1` and `s2`, feeding
`s1`, calling `writeSequence`, feeding `s2` and calling `writeSequence` on one
encoder writes `encode ctrl s1` followed by `encode ctrl s2`; after the first
`writeSequence` the counter is 0, while `lastByte` keeps its stale value. -/
theorem C9_flush_resets (ctrl : Nat) (s1 s2 : List Nat) :
    ((((Encoder.init.feed ctrl s1).writeSequence ctrl).feed ctrl s2).writeSequence ctrl).out =
      encode ctrl s1 ++ encode ctrl s2 ∧
    ((Encoder.init.feed ctrl s1).writeSequence ctrl).counter = 0 ∧
    ((Encoder.init.feed ctrl s1).writeSequence ctrl).lastByte =
      (Encoder.init.feed ctrl s1).lastByte := by
  refine ⟨?_, ?_, ?_⟩
  · rw [Encoder.writeSequence_eq ctrl (Encoder.init.feed ctrl s1), Encoder.flush_feed_idle]
    unfold encode
    rw [Encoder.writeSequence_eq ctrl (Encoder.init.feed ctrl s1)]
  · rw [Encoder.writeSequence_eq]
  · rw [Encoder.writeSequence_eq]

/-- C10 (bulk and per-byte feeding agree): for every encoder state and every
byte sequence `s` (zero bytes included), `write(s, |s|)` returns the state
(members and written bytes) reached by calling `putb` on each byte of `s` in
order, so flushing afterwards gives the same state too; and for every `s` of
bytes without a zero byte, `puts` on `s` followed by a NUL (and anything after
it) does likewise, so the flushed result is the same whichever method is
used. -/
theorem C10_bulk_eq_per_byte (ctrl : Nat) (e : Encoder) (s rest : List Nat) :
    Encoder.write ctrl e s s.length = some (e.feed ctrl s) ∧
    (Encoder.write ctrl e s s.length).map (Encoder.writeSequence ctrl) =
      some ((e.feed ctrl s).writeSequence ctrl) ∧
    (0 ∉ s → (∀ b ∈ s, b < 256) →
      Encoder.puts ctrl e (s ++ 0 :: rest) = some (e.feed ctrl s) ∧
      (Encoder.puts ctrl e (s ++ 0 :: rest)).map (Encoder.writeSequence ctrl) =
        (Encoder.write ctrl e s s.length).map (Encoder.writeSequence ctrl)) := by
  have hw : Encoder.write ctrl e s s.length = some (e.feed ctrl s) := by
    unfold Encoder.write Encoder.feed
    rw [if_pos (Nat.le_refl _), foldl_range_getD (Encoder.putb ctrl) s e]
  refine ⟨hw, by rw [hw]; rfl, ?_⟩
  intro h0 hb
  have hp := Encoder.puts_eq_feed ctrl s rest e h0 hb
  exact ⟨hp, by rw [hw, hp]⟩

theorem C10_bulk_eq_per_byte_witness :
    (Encoder.write 0xFA Encoder.init [0, 0, 0, 0, 0, 0x41] [0, 0, 0, 0, 0, 0x41].length =
        some (Encoder.init.feed 0xFA [0, 0, 0, 0, 0, 0x41]) ∧
     (Encoder.write 0xFA Encoder.init [0, 0, 0, 0, 0, 0x41]
          [0, 0, 0, 0, 0, 0x41].length).map (Encoder.writeSequence 0xFA) =
        some { lastByte := 0x41, counter := 0, out := [0xFA, 0, 5, 0x41] }) ∧
    (0 ∉ [0x61, 0x61, 0x61, 0x61, 0x62, 0x63] ∧
      ∀ b ∈ [0x61, 0x61, 0x61, 0x61, 0x62, 0x63], b < 256) ∧
    (Encoder.puts 0xFA Encoder.init ([0x61, 0x61, 0x61, 0x61, 0x62, 0x63] ++ 0 :: []) =
        some (Encoder.init.feed 0xFA [0x61, 0x61, 0x61, 0x61, 0x62, 0x63]) ∧
     (Encoder.puts 0xFA Encoder.init
          ([0x61, 0x61, 0x61, 0x61, 0x62, 0x63] ++ 0 :: [])).map (Encoder.writeSequence 0xFA) =
        (Encoder.write 0xFA Encoder.init [0x61, 0x61, 0x61, 0x61, 0x62, 0x63]
          [0x61, 0x61, 0x61, 0x61, 0x62, 0x63].length).map (Encoder.writeSequence 0xFA)) :=
  ⟨⟨(C10_bulk_eq_per_byte 0xFA Encoder.init [0, 0, 0, 0, 0, 0x41] []).1,
    (C10_bulk_eq_per_byte 0xFA Encoder.init [0, 0, 0, 0, 0, 0x41] []).2.1.trans (by decide)⟩,
   by decide,
   (C10_bulk_eq_per_byte 0xFA Encoder.init [0x61, 0x61, 0x61, 0x61, 0x62, 0x63] []).2.2
     (by decide) (by decide)⟩

/-- C1 (round trip): for every escape byte `ctrl` and every byte sequence `s`
(the empty one and those containing `ctrl` included), feeding `s` byte by byte
to a fresh encoder, calling `writeSequence`, and feeding everything the encoder
wrote to a fresh decoder makes the decoder write exactly `s`. -/
theorem C1_round_trip (ctrl : Nat) (s : List Nat) (hs : ∀ b ∈ s, b < 256) :
    decode ctrl (encode ctrl s) = s :=
  (decoder_after_flush ctrl s hs).2.2

theorem C1_round_trip_witness :
    (∀ b ∈ [0x41, 0x41, 0x41, 0x41, 0xFA, 0x20, 0xFA, 0xFA, 0xFA, 0x47], b < 256) ∧
    decode 0xFA (encode 0xFA [0x41, 0x41, 0x41, 0x41, 0xFA, 0x20, 0xFA, 0xFA, 0xFA, 0x47]) =
      [0x41, 0x41, 0x41, 0x41, 0xFA, 0x20, 0xFA, 0xFA, 0xFA, 0x47] :=
  ⟨by decide,
   C1_round_trip 0xFA [0x41, 0x41, 0x41, 0x41, 0xFA, 0x20, 0xFA, 0xFA, 0xFA, 0x47] (by decide)⟩

/-- C2 (escape-byte forcing): for every escape byte `ctrl`, every `n` with
`1 ≤ n ≤ 255` and every byte sequence `p` that is empty or does not end in
`ctrl`, the flushed output for `p` followed by `n` copies of `ctrl` is the
flushed output for `p` followed by exactly the frame `[ctrl, ctrl, n]`; so the
escape byte is framed even when `n = 1`.  The second part is the instance from
the tests, `"AAAA\xFA"` with `ctrl = 0xFA`. -/
theorem C2_escape_forcing (ctrl n : Nat) (p : List Nat) (h1 : 1 ≤ n) (h255 : n ≤ 255)
    (hp : p.getLast? ≠ some ctrl) :
    encode ctrl (p ++ List.replicate n ctrl) = encode ctrl p ++ [ctrl, ctrl, n] ∧
    encode 0xFA [0x41, 0x41, 0x41, 0x41, 0xFA] = [0xFA, 0x41, 0x04, 0xFA, 0xFA, 0x01] := by
  refine ⟨?_, by decide⟩
  unfold encode
  rw [Encoder.feed_append]
  apply Encoder.flush_feed_ctrl_run ctrl _ n h1 h255
  cases hl : p.getLast? with
  | none =>
    have : p = [] := List.getLast?_eq_none_iff.1 hl
    subst this
    exact Or.inl rfl
  | some x =>
    right
    rw [Encoder.feed_lastByte ctrl _ p x hl]
    intro hx
    exact hp (by rw [hl, hx])

theorem C2_escape_forcing_witness :
    (1 ≤ 1 ∧ 1 ≤ 255 ∧ [0x41, 0x41, 0x41, 0x41].getLast? ≠ some 0xFA) ∧
    (encode 0xFA ([0x41, 0x41, 0x41, 0x41] ++ List.replicate 1 0xFA) =
       encode 0xFA [0x41, 0x41, 0x41, 0x41] ++ [0xFA, 0xFA, 1] ∧
     encode 0xFA [0x41, 0x41, 0x41, 0x41, 0xFA] = [0xFA, 0x41, 0x04, 0xFA, 0xFA, 0x01]) :=
  ⟨by decide,
   C2_escape_forcing 0xFA 1 [0x41, 0x41, 0x41, 0x41] (by decide) (by decide) (by decide)⟩

/-- C7 (an un-flushed final run is exactly what is lost): for every escape byte
`ctrl` and every byte sequence `s` fed by `putb` to a fresh encoder without a
final `writeSequence`, decoding the bytes written so far with a fresh decoder
and appending `counter` copies of `lastByte` gives `s`; and nothing is missing
from the decoded output iff `counter = 0`. -/
theorem C7_unflushed_run_lost (ctrl : Nat) (s : List Nat) (hs : ∀ b ∈ s, b < 256) :
    decode ctrl (Encoder.init.feed ctrl s).out ++
        List.replicate (Encoder.init.feed ctrl s).counter (Encoder.init.feed ctrl s).lastByte =
      s ∧
    (decode ctrl (Encoder.init.feed ctrl s).out = s ↔ (Encoder.init.feed ctrl s).counter = 0) := by
  obtain ⟨_, _, _, _, ht⟩ := inStep_of_feed ctrl s hs
  refine ⟨ht, ?_⟩
  unfold decode
  constructor
  · intro h
    have hl := congrArg List.length ht
    rw [h] at hl
    simpa using hl
  · intro h
    rw [h] at ht
    simpa using ht

theorem C7_unflushed_run_lost_witness :
    (∀ b ∈ [0x41, 0x41, 0x41, 0x41, 0xFA, 0x42, 0x42], b < 256) ∧
    (decode 0xFA (Encoder.init.feed 0xFA [0x41, 0x41, 0x41, 0x41, 0xFA, 0x42, 0x42]).out ++
        List.replicate (Encoder.init.feed 0xFA [0x41, 0x41, 0x41, 0x41, 0xFA, 0x42, 0x42]).counter
          (Encoder.init.feed 0xFA [0x41, 0x41, 0x41, 0x41, 0xFA, 0x42, 0x42]).lastByte =
      [0x41, 0x41, 0x41, 0x41, 0xFA, 0x42, 0x42] ∧
     (decode 0xFA (Encoder.init.feed 0xFA [0x41, 0x41, 0x41, 0x41, 0xFA, 0x42, 0x42]).out =
        [0x41, 0x41, 0x41, 0x41, 0xFA, 0x42, 0x42] ↔
      (Encoder.init.feed 0xFA [0x41, 0x41, 0x41, 0x41, 0xFA, 0x42, 0x42]).counter = 0)) :=
  ⟨by decide,
   C7_unflushed_run_lost 0xFA [0x41, 0x41, 0x41, 0x41, 0xFA, 0x42, 0x42] (by decide)⟩

/-! ## Decoder: transitions and resumption -/

/-- The write loop only appends to the trace. -/
theorem writeLoop_out_frame (n v : Nat) (o : List Nat) :
    ∀ (fuel i : Nat) (o' : List Nat),
      writeLoop n v fuel i (o ++ o') = o ++ writeLoop n v fuel i o' := by
  intro fuel
  induction fuel with
  | zero => intro i o'; rfl
  | succ fuel ih =>
    intro i o'
    unfold writeLoop
    by_cases h : i < n
    · rw [if_pos h, if_pos h, List.append_assoc, ih]
    · rw [if_neg h, if_neg h]

namespace Decoder

/-- What `putb` writes and the members it leaves do not depend on what was
written before. -/
theorem decoder_putb_out_frame (ctrl : Nat) (g gb : Bool) (lb : Int) (o o' : List Nat)
    (b : Nat) :
    putb ctrl { gotCtrl := g, gotByte := gb, lastByte := lb, out := o ++ o' } b =
      { gotCtrl := (putb ctrl { gotCtrl := g, gotByte := gb, lastByte := lb, out := o' } b).gotCtrl,
        gotByte := (putb ctrl { gotCtrl := g, gotByte := gb, lastByte := lb, out := o' } b).gotByte,
        lastByte :=
          (putb ctrl { gotCtrl := g, gotByte := gb, lastByte := lb, out := o' } b).lastByte,
        out := o ++ (putb ctrl { gotCtrl := g, gotByte := gb, lastByte := lb, out := o' } b).out } := by
  cases g <;> cases gb <;> by_cases h : b = ctrl <;>
    simp [putb, writeFunc, h, writeLoop_out_frame, List.append_assoc]

theorem decoder_feed_out_frame (ctrl : Nat) (o : List Nat) :
    ∀ (s : List Nat) (g gb : Bool) (lb : Int) (o' : List Nat),
      feed ctrl { gotCtrl := g, gotByte := gb, lastByte := lb, out := o ++ o' } s =
        { gotCtrl := (feed ctrl { gotCtrl := g, gotByte := gb, lastByte := lb, out := o' } s).gotCtrl,
          gotByte := (feed ctrl { gotCtrl := g, gotByte := gb, lastByte := lb, out := o' } s).gotByte,
          lastByte :=
            (feed ctrl { gotCtrl := g, gotByte := gb, lastByte := lb, out := o' } s).lastByte,
          out := o ++ (feed ctrl { gotCtrl := g, gotByte := gb, lastByte := lb, out := o' } s).out } := by
  intro s
  induction s with
  | nil => intro g gb lb o'; rfl
  | cons b s ih =>
    intro g gb lb o'
    rw [decoder_feed_cons, decoder_feed_cons, decoder_putb_out_frame, ih]

theorem write_eq_feed (ctrl : Nat) (d : Decoder) (s : List Nat) :
    write ctrl d s s.length = some (d.feed ctrl s) := by
  unfold write feed
  rw [if_pos (Nat.le_refl _), foldl_range_getD (putb ctrl) s d]

end Decoder

/-- C11 (decoder transition table): for every escape byte `ctrl` and input byte
`b`, `Decoder::putb` acts as follows.  In Normal (`gotCtrl = false`) a byte
`b ≠ ctrl` is written and the phase stays Normal, while `b = ctrl` writes nothing
and sets `gotCtrl`.  In SawEscape (`gotCtrl`, not `gotByte`) nothing is written,
`b` is captured and `gotByte` is set.  In SawEscapeAndByte exactly `b` copies of
the captured byte are written (none for `b = 0`, at most 255) and both flags are
cleared.  A captured byte `v` in `0..255` is written back as the same unsigned
value although it is held in a signed 8-bit member, also for `v ≥ 0x80`. -/
theorem C11_decoder_transitions (ctrl b v : Nat) (gb : Bool) (lb : Int) (o : List Nat)
    (hb : b < 256) (hv : v < 256) :
    Decoder.putb ctrl { gotCtrl := false, gotByte := gb, lastByte := lb, out := o } b =
      (if b ≠ ctrl then { gotCtrl := false, gotByte := gb, lastByte := lb, out := o ++ [b] }
       else { gotCtrl := true, gotByte := gb, lastByte := lb, out := o }) ∧
    Decoder.putb ctrl { gotCtrl := true, gotByte := false, lastByte := lb, out := o } b =
      { gotCtrl := true, gotByte := true, lastByte := toInt8 b, out := o } ∧
    Decoder.putb ctrl { gotCtrl := true, gotByte := true, lastByte := lb, out := o } b =
      { gotCtrl := false, gotByte := false, lastByte := lb,
        out := o ++ List.replicate b (toUInt8 lb) } ∧
    (List.replicate b (toUInt8 lb)).length ≤ 255 ∧
    Decoder.putb ctrl
        (Decoder.putb ctrl { gotCtrl := true, gotByte := false, lastByte := lb, out := o } v) b =
      { gotCtrl := false, gotByte := false, lastByte := toInt8 v,
        out := o ++ List.replicate b v } := by
  refine ⟨?_, ?_, ?_, ?_, ?_⟩
  · by_cases h : b = ctrl <;> simp [Decoder.putb, Decoder.writeFunc, h]
  · simp [Decoder.putb]
  · simp [Decoder.putb, writeLoop_full _ _ hb]
  · rw [List.length_replicate]; omega
  · simp [Decoder.putb, writeLoop_full _ _ hb, toUInt8_toInt8 v hv]

theorem C11_decoder_transitions_witness :
    (3 < 256 ∧ 0x90 < 256) ∧
    (Decoder.putb 0xFA { gotCtrl := false, gotByte := false, lastByte := 0, out := [] } 3 =
      (if 3 ≠ 0xFA then { gotCtrl := false, gotByte := false, lastByte := 0, out := [] ++ [3] }
       else { gotCtrl := true, gotByte := false, lastByte := 0, out := [] }) ∧
    Decoder.putb 0xFA { gotCtrl := true, gotByte := false, lastByte := 0, out := [] } 3 =
      { gotCtrl := true, gotByte := true, lastByte := toInt8 3, out := [] } ∧
    Decoder.putb 0xFA { gotCtrl := true, gotByte := true, lastByte := 0, out := [] } 3 =
      { gotCtrl := false, gotByte := false, lastByte := 0,
        out := [] ++ List.replicate 3 (toUInt8 0) } ∧
    (List.replicate 3 (toUInt8 0)).length ≤ 255 ∧
    Decoder.putb 0xFA
        (Decoder.putb 0xFA { gotCtrl := true, gotByte := false, lastByte := 0, out := [] } 0x90) 3 =
      { gotCtrl := false, gotByte := false, lastByte := toInt8 0x90,
        out := [] ++ List.replicate 3 0x90 }) :=
  ⟨by decide, C11_decoder_transitions 0xFA 3 0x90 false 0 [] (by decide) (by decide)⟩

/-- C12 (decoder at rest): for every escape byte `ctrl` and every byte sequence
`s`, after a fresh decoder has consumed everything a fresh encoder wrote for `s`
followed by `writeSequence`, the decoder is in the Normal phase: `gotCtrl` and
`gotByte` are both false. -/
theorem C12_decoder_at_rest (ctrl : Nat) (s : List Nat) (hs : ∀ b ∈ s, b < 256) :
    (Decoder.init.feed ctrl (encode ctrl s)).gotCtrl = false ∧
    (Decoder.init.feed ctrl (encode ctrl s)).gotByte = false :=
  ⟨(decoder_after_flush ctrl s hs).1, (decoder_after_flush ctrl s hs).2.1⟩

theorem C12_decoder_at_rest_witness :
    (∀ b ∈ [0x41, 0x41, 0x41, 0x41, 0xFA, 0x20, 0xFA, 0xFA], b < 256) ∧
    ((Decoder.init.feed 0xFA (encode 0xFA [0x41, 0x41, 0x41, 0x41, 0xFA, 0x20, 0xFA, 0xFA])).gotCtrl
        = false ∧
     (Decoder.init.feed 0xFA (encode 0xFA [0x41, 0x41, 0x41, 0x41, 0xFA, 0x20, 0xFA, 0xFA])).gotByte
        = false) :=
  ⟨by decide,
   C12_decoder_at_rest 0xFA [0x41, 0x41, 0x41, 0x41, 0xFA, 0x20, 0xFA, 0xFA] (by decide)⟩

/-- C17 (the 255 boundary): for every escape byte `ctrl` and every byte `b`, a
fresh encoder fed 254 copies of `b` has written nothing and holds
`counter = 254`; the 255th `putb` itself writes the frame `[ctrl, b, 255]` and
leaves `counter = 0`, and a following `writeSequence` writes nothing more.  After
exactly 254 copies (and after any smaller number) nothing has been written, and
`writeSequence` then writes exactly `[ctrl, b, 254]`. -/
theorem C17_boundary_255 (ctrl b : Nat) :
    Encoder.init.feed ctrl (List.replicate 254 b) =
      { lastByte := b, counter := 254, out := [] } ∧
    (Encoder.init.feed ctrl (List.replicate 254 b)).putb ctrl b =
      { lastByte := b, counter := 0, out := [ctrl, b, 255] } ∧
    Encoder.init.feed ctrl (List.replicate 255 b) =
      { lastByte := b, counter := 0, out := [ctrl, b, 255] } ∧
    (Encoder.init.feed ctrl (List.replicate 255 b)).writeSequence ctrl =
      { lastByte := b, counter := 0, out := [ctrl, b, 255] } ∧
    (∀ k, k ≤ 254 → (Encoder.init.feed ctrl (List.replicate k b)).out = []) ∧
    (Encoder.init.feed ctrl (List.replicate 254 b)).writeSequence ctrl =
      { lastByte := b, counter := 0, out := [ctrl, b, 254] } := by
  have h254 : Encoder.init.feed ctrl (List.replicate 254 b) =
      { lastByte := b, counter := 254, out := [] } :=
    Encoder.feed_run_idle ctrl b 0 254 0 [] (by omega) (by omega)
  have h255 : Encoder.init.feed ctrl (List.replicate 255 b) =
      { lastByte := b, counter := 0, out := [ctrl, b, 255] } :=
    Encoder.feed_run_255 ctrl 0 b []
  refine ⟨h254, ?_, h255, ?_, ?_, ?_⟩
  · rw [h254]
    exact Encoder.putb_run_full ctrl b []
  · rw [h255, Encoder.writeSequence_idle]
  · intro k hk
    by_cases hz : k = 0
    · subst hz; rfl
    · have h := Encoder.feed_run_idle ctrl b 0 k 0 [] (by omega) (by omega)
      rw [show 255 * 0 + k = k by omega] at h
      unfold Encoder.init
      rw [h]
      rfl
  · rw [h254, Encoder.writeSequence_eq]
    simp [flushBytes]

/-- C18 (the decoder is resumable): for every escape byte `ctrl`, every decoder
state and all byte sequences `a` and `b`, `write` on `a` and then on `b` returns
the same state (members and written bytes) as one `write` on `a ++ b`, and as
`putb` on every byte in order.  What is written after a boundary and the members
reached depend only on `gotCtrl`, `gotByte` and `lastByte` at the boundary: the
bytes written before are only extended. -/
theorem C18_decoder_resumable (ctrl : Nat) (d : Decoder) (a b : List Nat) :
    (Decoder.write ctrl d a a.length).bind (fun d1 => Decoder.write ctrl d1 b b.length) =
      Decoder.write ctrl d (a ++ b) (a ++ b).length ∧
    Decoder.write ctrl d (a ++ b) (a ++ b).length = some (d.feed ctrl (a ++ b)) ∧
    d.feed ctrl (a ++ b) = (d.feed ctrl a).feed ctrl b ∧
    d.feed ctrl b =
      { gotCtrl := (Decoder.feed ctrl { d with out := [] } b).gotCtrl,
        gotByte := (Decoder.feed ctrl { d with out := [] } b).gotByte,
        lastByte := (Decoder.feed ctrl { d with out := [] } b).lastByte,
        out := d.out ++ (Decoder.feed ctrl { d with out := [] } b).out } := by
  refine ⟨?_, Decoder.write_eq_feed ctrl d (a ++ b), Decoder.decoder_feed_append ctrl d a b, ?_⟩
  · rw [Decoder.write_eq_feed, Decoder.write_eq_feed, Option.some_bind, Decoder.write_eq_feed,
      Decoder.decoder_feed_append]
  · obtain ⟨g, gb, lb, o⟩ := d
    have h := Decoder.decoder_feed_out_frame ctrl o b g gb lb []
    rw [List.append_nil] at h
    exact h

/-! ## Wire format, counter and size -/

theorem wireFormat_append (ctrl : Nat) (s t : List Nat) (hs : WireFormat ctrl s)
    (ht : WireFormat ctrl t) : WireFormat ctrl (s ++ t) := by
  induction hs with
  | nil => simpa using ht
  | literal b rest hb _ ih => exact WireFormat.literal b (rest ++ t) hb ih
  | frame v n rest h1 h2 h3 _ ih => exact WireFormat.frame v n (rest ++ t) h1 h2 h3 ih

theorem wireFormat_replicate (ctrl v : Nat) (hv : v ≠ ctrl) (c : Nat) :
    WireFormat ctrl (List.replicate c v) := by
  induction c with
  | zero => exact WireFormat.nil
  | succ c ih => exact WireFormat.literal v _ hv ih

/-- The bytes of one flush are well formed when the counter is an 8-bit value. -/
theorem wireFormat_flushBytes (ctrl v c : Nat) (hc : c ≤ 255) :
    WireFormat ctrl (flushBytes ctrl v c) := by
  unfold flushBytes
  by_cases h0 : c = 0
  · rw [if_pos h0]; exact WireFormat.nil
  · rw [if_neg h0]
    by_cases h1 : c > 3 ∨ ctrl = v
    · rw [if_pos h1]
      refine WireFormat.frame v c [] (by omega) hc ?_ WireFormat.nil
      rcases h1 with h | h
      · exact Or.inl (by omega)
      · exact Or.inr h.symm
    · rw [if_neg h1]
      exact wireFormat_replicate ctrl v (fun h => h1 (Or.inr h.symm)) c

/-- The counter stays at most 254 across `putb`. -/
theorem putb_counter_le (ctrl : Nat) (e : Encoder) (b : Nat) (h : e.counter ≤ 254) :
    (e.putb ctrl b).counter ≤ 254 := by
  obtain ⟨v, c, o⟩ := e
  simp only at h
  rw [Encoder.putb_eq]
  have hmod : (c + 1) % 256 = c + 1 := Nat.mod_eq_of_lt (by omega)
  rw [hmod]
  split_ifs <;> simp only <;> omega

/-- Every `putb` appends well-formed bytes to a well-formed trace. -/
theorem wireFormat_putb (ctrl : Nat) (e : Encoder) (b : Nat) (hc : e.counter ≤ 254)
    (hw : WireFormat ctrl e.out) : WireFormat ctrl (e.putb ctrl b).out := by
  obtain ⟨v, c, o⟩ := e
  simp only at hc hw
  rw [Encoder.putb_eq]
  have hmod : (c + 1) % 256 = c + 1 := Nat.mod_eq_of_lt (by omega)
  rw [hmod]
  split_ifs
  · exact hw
  · exact wireFormat_append ctrl _ _ hw (wireFormat_flushBytes ctrl v (c + 1) (by omega))
  · exact hw
  · exact wireFormat_append ctrl _ _ hw (wireFormat_flushBytes ctrl v c (by omega))

theorem wireFormat_feed (ctrl : Nat) :
    ∀ (s : List Nat) (e : Encoder), e.counter ≤ 254 → WireFormat ctrl e.out →
      (e.feed ctrl s).counter ≤ 254 ∧ WireFormat ctrl (e.feed ctrl s).out := by
  intro s
  induction s with
  | nil => intro e hc hw; exact ⟨hc, hw⟩
  | cons b s ih =>
    intro e hc hw
    rw [Encoder.feed_cons]
    exact ih _ (putb_counter_le ctrl e b hc) (wireFormat_putb ctrl e b hc hw)

/-- C13 (wire-format well-formedness): for every escape byte `ctrl` and every
byte sequence `s`, what a fresh encoder writes for `s` followed by
`writeSequence` is a concatenation of tokens, each a single literal byte
different from `ctrl` or a frame `[ctrl, v, n]` with `1 ≤ n ≤ 255` and `n ≥ 4`
or `v = ctrl`; so a count of 0 is never written and the escape byte is never
written as a literal. -/
theorem C13_wire_format (ctrl : Nat) (s : List Nat) : WireFormat ctrl (encode ctrl s) := by
  obtain ⟨hc, hw⟩ := wireFormat_feed ctrl s Encoder.init (by simp [Encoder.init])
    (by simpa [Encoder.init] using WireFormat.nil)
  unfold encode
  rw [Encoder.writeSequence_eq]
  exact wireFormat_append ctrl _ _ hw (wireFormat_flushBytes ctrl _ _ (by omega))

/-- The open run of the encoder is the reference accumulation: the invariant
behind C14, for one call. -/
theorem accumulate_call (ctrl : Nat) (e : Encoder) (acc : List Nat) (c : Call)
    (hc : e.counter ≤ 254) (hacc : acc = List.replicate e.counter e.lastByte) :
    (e.call ctrl c).counter ≤ 254 ∧
    specAccumulate acc c =
      List.replicate (e.call ctrl c).counter (e.call ctrl c).lastByte := by
  cases c with
  | writeSequence =>
    simp [Encoder.call, specAccumulate, Encoder.writeSequence_eq]
  | putb b =>
    refine ⟨putb_counter_le ctrl e b hc, ?_⟩
    obtain ⟨v, n, o⟩ := e
    simp only at hc hacc
    subst hacc
    simp only [Encoder.call, specAccumulate]
    rw [Encoder.putb_eq]
    have hmod : (n + 1) % 256 = n + 1 := Nat.mod_eq_of_lt (by omega)
    rw [hmod]
    by_cases h0 : n = 0
    · subst h0
      simp
    · obtain ⟨m, rfl⟩ : ∃ m, n = m + 1 := ⟨n - 1, by omega⟩
      have hne : List.replicate (m + 1) v ≠ [] := by simp [List.replicate_succ]
      have hhead : (List.replicate (m + 1) v).head? = some v := by simp [List.replicate_succ]
      rw [if_neg hne, if_neg h0, hhead]
      by_cases hbv : b = v
      · subst hbv
        rw [if_pos rfl, if_pos rfl, List.length_replicate]
        by_cases hfull : m + 1 + 1 ≥ 255
        · rw [if_pos hfull, if_pos hfull]
          rfl
        · rw [if_neg hfull, if_neg hfull]
          simp only
          rw [← List.replicate_succ']
      · have hne2 : ¬ (some v = some b) := fun h => hbv (Option.some.inj h).symm
        rw [if_neg hne2, if_neg hbv]
        rfl

theorem accumulate_run (ctrl : Nat) :
    ∀ (cs : List Call) (e : Encoder) (acc : List Nat), e.counter ≤ 254 →
      acc = List.replicate e.counter e.lastByte →
      (e.run ctrl cs).counter ≤ 254 ∧
      cs.foldl specAccumulate acc =
        List.replicate (e.run ctrl cs).counter (e.run ctrl cs).lastByte := by
  intro cs
  induction cs with
  | nil => intro e acc hc hacc; exact ⟨hc, hacc⟩
  | cons c cs ih =>
    intro e acc hc hacc
    obtain ⟨h1, h2⟩ := accumulate_call ctrl e acc c hc hacc
    exact ih (e.call ctrl c) (specAccumulate acc c) h1 h2

/-- C14 (run-length counter invariant): in every encoder state reached from
construction by any sequence of `putb` and `writeSequence` calls the counter is
at most 254, so the increment in `putb` gives at most 255 and does not wrap
modulo 256; the counter is the number of bytes accumulated since construction or
since the last explicit or forced flush, all of them equal to `lastByte`, and it
is 0 exactly when no byte has been accumulated. -/
theorem C14_counter_invariant (ctrl : Nat) (cs : List Call) :
    (Encoder.init.run ctrl cs).counter ≤ 254 ∧
    (Encoder.init.run ctrl cs).counter + 1 ≤ 255 ∧
    ((Encoder.init.run ctrl cs).counter + 1) % 256 = (Encoder.init.run ctrl cs).counter + 1 ∧
    specAccumulated cs =
      List.replicate (Encoder.init.run ctrl cs).counter (Encoder.init.run ctrl cs).lastByte ∧
    ((Encoder.init.run ctrl cs).counter = 0 ↔ specAccumulated cs = []) := by
  obtain ⟨h1, h2⟩ := accumulate_run ctrl cs Encoder.init [] (by simp [Encoder.init])
    (by simp [Encoder.init])
  refine ⟨h1, by omega, Nat.mod_eq_of_lt (by omega), h2, ?_⟩
  unfold specAccumulated
  rw [h2]
  constructor
  · intro h; rw [h]; rfl
  · intro h
    have := congrArg List.length h
    simpa using this

/-! ## The batch reference definition -/

theorem runs_cons (b : Nat) (s : List Nat) :
    runs (b :: s) =
      match runs s with
      | [] => [(b, 1)]
      | (v, n) :: rs => if v = b then (v, n + 1) :: rs else (b, 1) :: (v, n) :: rs := by
  rw [runs]

/-- The first run of a non-empty sequence is a run of its first byte. -/
theorem runs_head (b : Nat) (s : List Nat) :
    ∃ n rs, runs (b :: s) = (b, n + 1) :: rs := by
  rw [runs_cons]
  cases h : runs s with
  | nil => exact ⟨0, [], rfl⟩
  | cons r rs =>
    obtain ⟨v, n⟩ := r
    by_cases hv : v = b
    · subst hv
      exact ⟨n, rs, by simp⟩
    · exact ⟨0, (v, n) :: rs, by simp [hv]⟩

/-- Putting `k + 1` copies of `v` in front extends a leading run of `v` and
otherwise adds a run. -/
theorem runs_replicate_append (v : Nat) (t : List Nat) :
    ∀ k : Nat, runs (List.replicate (k + 1) v ++ t) =
      match runs t with
      | [] => [(v, k + 1)]
      | (w, n) :: rs => if w = v then (v, n + (k + 1)) :: rs else (v, k + 1) :: (w, n) :: rs := by
  intro k
  induction k with
  | zero =>
    rw [show List.replicate (0 + 1) v ++ t = v :: t from rfl, runs_cons]
    cases h : runs t with
    | nil => rfl
    | cons r rs =>
      obtain ⟨w, n⟩ := r
      by_cases hw : w = v
      · subst hw; simp
      · simp [hw]
  | succ k ih =>
    rw [show List.replicate (k + 1 + 1) v ++ t = v :: (List.replicate (k + 1) v ++ t) from rfl,
      runs_cons, ih]
    cases h : runs t with
    | nil => simp
    | cons r rs =>
      obtain ⟨w, n⟩ := r
      by_cases hw : w = v
      · subst hw; simp; omega
      · simp [hw]

theorem specConcat_append {α : Type} (f : α → List Nat) (xs ys : List α) :
    specConcat f (xs ++ ys) = specConcat f xs ++ specConcat f ys := by
  induction xs with
  | nil => rfl
  | cons x xs ih => simp [specConcat, ih]

/-- A piece agrees with what `writeSequence` writes for a non-empty run. -/
theorem specPiece_eq_flushBytes (ctrl v c : Nat) (hc : c ≠ 0) :
    specPiece ctrl v c = flushBytes ctrl v c := by
  unfold specPiece flushBytes
  rw [if_neg hc]
  simp only [eq_comm]

/-- A run shorter than 255 is one piece. -/
theorem specRun_short (ctrl v c : Nat) (h1 : 1 ≤ c) (h254 : c ≤ 254) :
    specRun ctrl (v, c) = flushBytes ctrl v c := by
  have hd : c / 255 = 0 := Nat.div_eq_of_lt (by omega)
  have hm : c % 255 = c := Nat.mod_eq_of_lt (by omega)
  unfold specRun specPieces
  simp only [hd, hm]
  rw [if_neg (by omega)]
  simp [specConcat, specPiece_eq_flushBytes ctrl v c (by omega)]

/-- Adding 255 to a run adds one full frame in front. -/
theorem specRun_add_255 (ctrl v n : Nat) :
    specRun ctrl (v, n + 255) = [ctrl, v, 255] ++ specRun ctrl (v, n) := by
  have hd : (n + 255) / 255 = n / 255 + 1 := by omega
  have hm : (n + 255) % 255 = n % 255 := by omega
  have hp : specPiece ctrl v 255 = [ctrl, v, 255] := by simp [specPiece]
  unfold specRun specPieces
  simp only [hd, hm]
  rw [List.replicate_succ, List.cons_append]
  simp only [specConcat, hp]

/-- A run of exactly 255 is one full frame. -/
theorem specRun_255 (ctrl v : Nat) : specRun ctrl (v, 255) = [ctrl, v, 255] := by
  have h := specRun_add_255 ctrl v 0
  rw [show 0 + 255 = 255 from rfl] at h
  rw [h]
  simp [specRun, specPieces, specConcat]

/-- In the reference encoding, 255 equal bytes in front add one full frame. -/
theorem specEncode_255_append (ctrl v : Nat) (t : List Nat) :
    specEncode ctrl (List.replicate 255 v ++ t) = [ctrl, v, 255] ++ specEncode ctrl t := by
  unfold specEncode
  rw [show (255 : Nat) = 254 + 1 from rfl, runs_replicate_append v t 254]
  cases h : runs t with
  | nil => simp [specConcat, specRun_255]
  | cons r rs =>
    obtain ⟨w, n⟩ := r
    by_cases hw : w = v
    · subst hw
      simp only [if_true, specConcat]
      rw [show n + (254 + 1) = n + 255 from rfl, specRun_add_255, List.append_assoc]
    · simp only [if_neg hw, specConcat]
      rw [show (254 + 1 : Nat) = 255 from rfl, specRun_255]

/-- In the reference encoding, a short run in front of a different byte is
encoded by itself. -/
theorem specEncode_run_append (ctrl v c b : Nat) (t : List Nat) (h1 : 1 ≤ c) (h254 : c ≤ 254)
    (hbv : b ≠ v) :
    specEncode ctrl (List.replicate c v ++ b :: t) =
      flushBytes ctrl v c ++ specEncode ctrl (b :: t) := by
  obtain ⟨k, rfl⟩ : ∃ k, c = k + 1 := ⟨c - 1, by omega⟩
  obtain ⟨n, rs, hr⟩ := runs_head b t
  unfold specEncode
  rw [runs_replicate_append v (b :: t) k, hr]
  simp only [if_neg hbv, specConcat]
  rw [specRun_short ctrl v (k + 1) h1 h254]

/-- In the reference encoding, a short run alone is what one flush writes. -/
theorem specEncode_replicate (ctrl v c : Nat) (h254 : c ≤ 254) :
    specEncode ctrl (List.replicate c v) = flushBytes ctrl v c := by
  by_cases h0 : c = 0
  · subst h0
    simp [specEncode, runs, specConcat, flushBytes]
  · obtain ⟨k, rfl⟩ : ∃ k, c = k + 1 := ⟨c - 1, by omega⟩
    have h := runs_replicate_append v [] k
    rw [List.append_nil] at h
    unfold specEncode
    rw [h]
    simp only [runs, specConcat, List.append_nil]
    exact specRun_short ctrl v (k + 1) (by omega) h254

/-- The streaming encoder, started in any state with an 8-bit counter below 255,
writes the reference encoding of its open run followed by the input. -/
theorem flush_feed_eq_specEncode (ctrl : Nat) :
    ∀ (s : List Nat) (v c : Nat) (o : List Nat), c ≤ 254 →
      ((Encoder.feed ctrl { lastByte := v, counter := c, out := o } s).writeSequence ctrl).out =
        o ++ specEncode ctrl (List.replicate c v ++ s) := by
  intro s
  induction s with
  | nil =>
    intro v c o hc
    rw [List.append_nil, specEncode_replicate ctrl v c hc, Encoder.feed_nil,
      Encoder.writeSequence_eq]
  | cons b s ih =>
    intro v c o hc
    rw [Encoder.feed_cons, Encoder.putb_eq]
    have hmod : (c + 1) % 256 = c + 1 := Nat.mod_eq_of_lt (by omega)
    rw [hmod]
    by_cases h0 : c = 0
    · subst h0
      rw [if_pos rfl, ih b 1 o (by omega)]
      rfl
    · rw [if_neg h0]
      by_cases hbv : b = v
      · subst hbv
        rw [if_pos rfl]
        have hl : List.replicate c b ++ b :: s = List.replicate (c + 1) b ++ s := by
          rw [List.replicate_succ', List.append_assoc]
          rfl
        by_cases hfull : c + 1 ≥ 255
        · have hc254 : c = 254 := by omega
          subst hc254
          rw [if_pos hfull, ih b 0 _ (by omega), hl, specEncode_255_append]
          simp [flushBytes, List.append_assoc]
        · rw [if_neg hfull, ih b (c + 1) o (by omega), hl]
      · rw [if_neg hbv, ih b 1 _ (by omega),
          specEncode_run_append ctrl v c b s (by omega) hc hbv, List.append_assoc]
        rfl

/-- C16 (the streaming encoder equals the batch reference definition): for every
escape byte `ctrl` and every byte sequence `s`, what a fresh encoder writes for
`s` followed by `writeSequence` is the concatenation, over the maximal runs
`(b, n)` of `s` in order, of the encodings of the pieces obtained by cutting the
run into `n / 255` pieces of length 255 followed by one piece of length
`n % 255` if that is not zero, a piece `(b, k)` being the frame `[ctrl, b, k]`
if `k > 3` or `b = ctrl` and `k` literal copies of `b` otherwise.  The second
part is the instance from the header documentation, `"ABCDEFAAAAAAAA"` with
`ctrl = 0xFA`. -/
theorem C16_streaming_eq_batch (ctrl : Nat) (s : List Nat) :
    encode ctrl s = specEncode ctrl s ∧
    encode 0xFA [0x41, 0x42, 0x43, 0x44, 0x45, 0x46,
        0x41, 0x41, 0x41, 0x41, 0x41, 0x41, 0x41, 0x41] =
      [0x41, 0x42, 0x43, 0x44, 0x45, 0x46, 0xFA, 0x41, 0x08] := by
  refine ⟨?_, by decide⟩
  have h := flush_feed_eq_specEncode ctrl s 0 0 [] (by omega)
  simpa [encode, Encoder.init] using h

/-! ## Incompressible input and output size -/

/-- Every run is non-empty and its byte occurs in the sequence. -/
theorem runs_mem (s : List Nat) : ∀ r ∈ runs s, r.1 ∈ s ∧ 1 ≤ r.2 := by
  induction s with
  | nil => intro r hr; simp [runs] at hr
  | cons b s ih =>
    intro r hr
    rw [runs_cons] at hr
    cases h : runs s with
    | nil =>
      rw [h] at hr
      simp at hr
      subst hr
      simp
    | cons q rs =>
      obtain ⟨v, n⟩ := q
      rw [h] at hr ih
      by_cases hv : v = b
      · subst hv
        simp only [if_true, List.mem_cons] at hr
        rcases hr with hr | hr
        · subst hr; simp
        · obtain ⟨h1, h2⟩ := ih r (List.mem_cons_of_mem _ hr)
          exact ⟨List.mem_cons_of_mem _ h1, h2⟩
      · simp only [if_neg hv, List.mem_cons] at hr
        rcases hr with hr | hr | hr
        · subst hr; simp
        · obtain ⟨h1, h2⟩ := ih r (by rw [hr]; exact List.mem_cons_self _ _)
          exact ⟨List.mem_cons_of_mem _ h1, h2⟩
        · obtain ⟨h1, h2⟩ := ih r (List.mem_cons_of_mem _ hr)
          exact ⟨List.mem_cons_of_mem _ h1, h2⟩

/-- Writing every run out gives the sequence back. -/
theorem runs_expand (s : List Nat) :
    specConcat (fun r : Nat × Nat => List.replicate r.2 r.1) (runs s) = s := by
  induction s with
  | nil => rfl
  | cons b s ih =>
    rw [runs_cons]
    cases h : runs s with
    | nil =>
      rw [h] at ih
      simp only [specConcat] at ih
      simp [specConcat, ← ih]
    | cons q rs =>
      obtain ⟨v, n⟩ := q
      rw [h] at ih
      by_cases hv : v = b
      · subst hv
        simp only [if_true, specConcat] at ih ⊢
        rw [List.replicate_succ, List.cons_append, ih]
      · simp only [if_neg hv, specConcat] at ih ⊢
        rw [ih]
        rfl

/-- Neighbouring runs are runs of different bytes: the runs are maximal. -/
theorem runs_chain (s : List Nat) :
    List.Chain' (fun a b : Nat × Nat => a.1 ≠ b.1) (runs s) := by
  induction s with
  | nil => simp [runs]
  | cons b s ih =>
    rw [runs_cons]
    cases h : runs s with
    | nil => simp
    | cons q rs =>
      obtain ⟨v, n⟩ := q
      rw [h] at ih
      by_cases hv : v = b
      · subst hv
        simp only [if_true]
        cases rs with
        | nil => simp
        | cons q2 rs2 =>
          rw [List.chain'_cons] at ih ⊢
          exact ih
      · simp only [if_neg hv]
        rw [List.chain'_cons]
        exact ⟨fun hb => hv hb.symm, ih⟩

theorem specConcat_congr {α : Type} (f g : α → List Nat) (xs : List α)
    (h : ∀ x ∈ xs, f x = g x) : specConcat f xs = specConcat g xs := by
  induction xs with
  | nil => rfl
  | cons x xs ih =>
    simp only [specConcat]
    rw [h x (List.mem_cons_self _ _), ih (fun y hy => h y (List.mem_cons_of_mem _ hy))]

/-- The reference encoding leaves a sequence without escape bytes and without
runs longer than 3 unchanged. -/
theorem specEncode_incompressible (ctrl : Nat) (s : List Nat) (hctrl : ctrl ∉ s)
    (hruns : ∀ r ∈ runs s, r.2 ≤ 3) : specEncode ctrl s = s := by
  have hcongr : specConcat (specRun ctrl) (runs s) =
      specConcat (fun r : Nat × Nat => List.replicate r.2 r.1) (runs s) := by
    apply specConcat_congr
    intro r hr
    obtain ⟨v, n⟩ := r
    obtain ⟨hmem, hpos⟩ := runs_mem s (v, n) hr
    have h3 := hruns (v, n) hr
    simp only at hmem hpos h3
    have hne : ¬ ctrl = v := fun h => hctrl (h ▸ hmem)
    rw [specRun_short ctrl v n hpos (by omega)]
    unfold flushBytes
    rw [if_neg (by omega), if_neg]
    rintro (h | h)
    · omega
    · exact hne h
  unfold specEncode
  rw [hcongr, runs_expand]

/-- Between frames, a sequence without escape bytes passes through the decoder. -/
theorem decoder_feed_no_ctrl (ctrl : Nat) :
    ∀ (s : List Nat) (gb : Bool) (lb : Int) (o : List Nat), ctrl ∉ s →
      Decoder.feed ctrl { gotCtrl := false, gotByte := gb, lastByte := lb, out := o } s =
        { gotCtrl := false, gotByte := gb, lastByte := lb, out := o ++ s } := by
  intro s
  induction s with
  | nil => intro gb lb o _; simp [Decoder.feed]
  | cons b s ih =>
    intro gb lb o h
    have hb : b ≠ ctrl := fun hb => h (by simp [hb])
    have hs : ctrl ∉ s := fun hs => h (List.mem_cons_of_mem _ hs)
    have hp : Decoder.putb ctrl { gotCtrl := false, gotByte := gb, lastByte := lb, out := o } b =
        { gotCtrl := false, gotByte := gb, lastByte := lb, out := o ++ [b] } := by
      simp [Decoder.putb, Decoder.writeFunc, hb]
    rw [Decoder.decoder_feed_cons, hp, ih gb lb _ hs]
    simp [List.append_assoc]

/-- Each list `f x` is a contiguous part of the concatenation. -/
theorem specConcat_contains {α : Type} (f : α → List Nat) (x : α) :
    ∀ xs : List α, x ∈ xs → f x <:+: specConcat f xs := by
  intro xs
  induction xs with
  | nil => intro h; simp at h
  | cons y ys ih =>
    intro h
    rcases List.mem_cons.1 h with h | h
    · subst h
      exact ⟨[], specConcat f ys, by simp [specConcat]⟩
    · obtain ⟨a, c, hac⟩ := ih h
      exact ⟨f y ++ a, c, by simp [specConcat, ← hac, List.append_assoc]⟩

/-- If no byte occurs 4 times consecutively, every maximal run has length at
most 3. -/
theorem runs_le_of_no_long_run (s : List Nat) (h : ∀ b, ¬ List.replicate 4 b <:+: s) :
    ∀ r ∈ runs s, r.2 ≤ 3 := by
  intro r hr
  by_contra hlt
  have hin : List.replicate r.2 r.1 <:+: s := by
    have := specConcat_contains (fun q : Nat × Nat => List.replicate q.2 q.1) r (runs s) hr
    rwa [runs_expand] at this
  have h4 : List.replicate 4 r.1 <:+: List.replicate r.2 r.1 :=
    ⟨[], List.replicate (r.2 - 4) r.1, by
      rw [List.nil_append, ← List.replicate_add]
      congr 1
      omega⟩
  exact h r.1 (h4.trans hin)

/-- C15 (incompressible input passes through unchanged): for every escape byte
`ctrl` and every byte sequence `s` that does not contain `ctrl` and in which no
byte occurs more than 3 times consecutively (no 4 equal bytes in a row), what a
fresh encoder writes for `s` followed by `writeSequence` is `s`, and decoding
that output gives `s` as well. -/
theorem C15_incompressible (ctrl : Nat) (s : List Nat) (hctrl : ctrl ∉ s)
    (hno : ∀ b, ¬ List.replicate 4 b <:+: s) :
    encode ctrl s = s ∧ decode ctrl (encode ctrl s) = s := by
  have hruns := runs_le_of_no_long_run s hno
  have henc : encode ctrl s = s := by
    have h := flush_feed_eq_specEncode ctrl s 0 0 [] (by omega)
    have h' : encode ctrl s = specEncode ctrl s := by
      simpa [encode, Encoder.init] using h
    rw [h', specEncode_incompressible ctrl s hctrl hruns]
  refine ⟨henc, ?_⟩
  rw [henc]
  unfold decode Decoder.init
  rw [decoder_feed_no_ctrl ctrl s false 0 [] hctrl]
  rfl

theorem C15_incompressible_witness :
    (0xFA ∉ [0x41, 0x42, 0x43, 0x44, 0x45, 0x46, 0x47] ∧
      ∀ b, ¬ List.replicate 4 b <:+: [0x41, 0x42, 0x43, 0x44, 0x45, 0x46, 0x47]) ∧
    (encode 0xFA [0x41, 0x42, 0x43, 0x44, 0x45, 0x46, 0x47] =
        [0x41, 0x42, 0x43, 0x44, 0x45, 0x46, 0x47] ∧
     decode 0xFA (encode 0xFA [0x41, 0x42, 0x43, 0x44, 0x45, 0x46, 0x47]) =
        [0x41, 0x42, 0x43, 0x44, 0x45, 0x46, 0x47]) := by
  have hno : ∀ b, ¬ List.replicate 4 b <:+: [0x41, 0x42, 0x43, 0x44, 0x45, 0x46, 0x47] := by
    intro b h
    have hb : b ∈ [0x41, 0x42, 0x43, 0x44, 0x45, 0x46, 0x47] := h.subset (by simp)
    simp only [List.mem_cons, List.mem_singleton, List.not_mem_nil, or_false] at hb
    rcases hb with rfl | rfl | rfl | rfl | rfl | rfl | rfl <;> revert h <;> decide
  exact ⟨⟨by decide, hno⟩,
    C15_incompressible 0xFA [0x41, 0x42, 0x43, 0x44, 0x45, 0x46, 0x47] (by decide) hno⟩

/-- One flush writes at most 3 bytes per accumulated byte. -/
theorem flushBytes_length_le (ctrl v c : Nat) : (flushBytes ctrl v c).length ≤ 3 * c := by
  unfold flushBytes
  split_ifs <;> simp <;> omega

/-- One flush of a byte other than the escape byte writes at most as many bytes
as were accumulated. -/
theorem flushBytes_length_le_of_ne (ctrl v c : Nat) (hv : v ≠ ctrl) :
    (flushBytes ctrl v c).length ≤ c := by
  unfold flushBytes
  by_cases h0 : c = 0
  · simp [h0]
  · rw [if_neg h0]
    by_cases h3 : c > 3
    · rw [if_pos (Or.inl h3)]
      simp
      omega
    · rw [if_neg]
      · simp
      · rintro (h | h)
        · exact h3 h
        · exact hv h.symm

/-- Written bytes plus three per pending byte never exceed three per input byte. -/
theorem size_feed (ctrl : Nat) :
    ∀ (s : List Nat) (e : Encoder) (n : Nat), e.counter ≤ 254 →
      e.out.length + 3 * e.counter ≤ 3 * n →
      (e.feed ctrl s).out.length + 3 * (e.feed ctrl s).counter ≤ 3 * (n + s.length) := by
  intro s
  induction s with
  | nil => intro e n _ h; simpa [Encoder.feed] using h
  | cons b s ih =>
    intro e n hc h
    rw [Encoder.feed_cons]
    have hstep : (e.putb ctrl b).out.length + 3 * (e.putb ctrl b).counter ≤ 3 * (n + 1) := by
      obtain ⟨v, c, o⟩ := e
      simp only at hc h
      rw [Encoder.putb_eq]
      have hmod : (c + 1) % 256 = c + 1 := Nat.mod_eq_of_lt (by omega)
      rw [hmod]
      have hf1 := flushBytes_length_le ctrl v (c + 1)
      have hf2 := flushBytes_length_le ctrl v c
      split_ifs <;> simp only [List.length_append] <;> omega
    have h' := ih (e.putb ctrl b) (n + 1) (putb_counter_le ctrl e b hc) hstep
    rw [List.length_cons]
    have : n + 1 + s.length = n + (s.length + 1) := by omega
    rw [← this]
    exact h'

/-- Without escape bytes in the input, written bytes plus pending bytes never
exceed the input bytes, and the pending byte is not the escape byte. -/
theorem size_feed_no_ctrl (ctrl : Nat) :
    ∀ (s : List Nat) (e : Encoder) (n : Nat), ctrl ∉ s → e.counter ≤ 254 →
      (e.counter ≠ 0 → e.lastByte ≠ ctrl) →
      e.out.length + e.counter ≤ n →
      ((e.feed ctrl s).counter ≠ 0 → (e.feed ctrl s).lastByte ≠ ctrl) ∧
      (e.feed ctrl s).counter ≤ 254 ∧
      (e.feed ctrl s).out.length + (e.feed ctrl s).counter ≤ n + s.length := by
  intro s
  induction s with
  | nil => intro e n _ hc hl h; exact ⟨hl, hc, by simpa [Encoder.feed] using h⟩
  | cons b s ih =>
    intro e n hs hc hl h
    have hb : b ≠ ctrl := fun hb => hs (by simp [hb])
    have hs' : ctrl ∉ s := fun h' => hs (List.mem_cons_of_mem _ h')
    rw [Encoder.feed_cons]
    have hstep : (e.putb ctrl b).out.length + (e.putb ctrl b).counter ≤ n + 1 := by
      obtain ⟨v, c, o⟩ := e
      simp only at hc h hl
      rw [Encoder.putb_eq]
      have hmod : (c + 1) % 256 = c + 1 := Nat.mod_eq_of_lt (by omega)
      rw [hmod]
      by_cases h0 : c = 0
      · rw [if_pos h0]; simp only; omega
      · have hv : v ≠ ctrl := hl h0
        have hf1 := flushBytes_length_le_of_ne ctrl v (c + 1) hv
        have hf2 := flushBytes_length_le_of_ne ctrl v c hv
        rw [if_neg h0]
        split_ifs <;> simp only [List.length_append] <;> omega
    have hlast : (e.putb ctrl b).counter ≠ 0 → (e.putb ctrl b).lastByte ≠ ctrl := by
      intro _
      rw [Encoder.putb_lastByte]
      exact hb
    obtain ⟨r1, r2, r3⟩ := ih (e.putb ctrl b) (n + 1) hs' (putb_counter_le ctrl e b hc) hlast hstep
    refine ⟨r1, r2, ?_⟩
    rw [List.length_cons]
    omega

/-- C19 (output size bound): for every escape byte `ctrl` and every byte sequence
`s`, what a fresh encoder writes for `s` followed by `writeSequence` has length
at most `3 * |s|`; and if `s` does not contain `ctrl`, its length is at most
`|s|`. -/
theorem C19_output_size (ctrl : Nat) (s : List Nat) :
    (encode ctrl s).length ≤ 3 * s.length ∧
    (ctrl ∉ s → (encode ctrl s).length ≤ s.length) := by
  constructor
  · have h := size_feed ctrl s Encoder.init 0 (by simp [Encoder.init]) (by simp [Encoder.init])
    have hf := flushBytes_length_le ctrl (Encoder.init.feed ctrl s).lastByte
      (Encoder.init.feed ctrl s).counter
    unfold encode
    rw [Encoder.writeSequence_eq]
    simp only [List.length_append]
    omega
  · intro hctrl
    obtain ⟨h1, _, h3⟩ := size_feed_no_ctrl ctrl s Encoder.init 0 hctrl (by simp [Encoder.init])
      (by simp [Encoder.init]) (by simp [Encoder.init])
    unfold encode
    rw [Encoder.writeSequence_eq]
    simp only [List.length_append]
    by_cases h0 : (Encoder.init.feed ctrl s).counter = 0
    · rw [h0]
      simp [flushBytes]
      omega
    · have hf := flushBytes_length_le_of_ne ctrl (Encoder.init.feed ctrl s).lastByte
        (Encoder.init.feed ctrl s).counter (h1 h0)
      omega

end SRLE
